import Mathlib

/-!
Verification of the numerical core of the ConsumptionSaving toolkit: the
binary bracket search (`linear_interp.binary_search`), the 2-dimensional
multilinear interpolation family (`linear_interp_2d`) with its prepared
"only-last-dimension" variants, and the non-convex upper envelope
(`upperenvelope.upperenvelope`).

The embedding works over exact rationals (`ℚ`); machine floating point is
modelled by exact field arithmetic.  Arrays are modelled as `List ℚ` read
through `List.getD` (out-of-contract reads default to `0`, which no theorem
relies on), and the `-np.inf` sentinel of the upper envelope is modelled by
`⊥ : WithBot ℚ`.  Python `while` loops are embedded as fuel-indexed
structural recursion; a fuel-adequacy theorem shows the fuelled loop
reaches its exit condition, which is the termination statement for the
original loop.
-/

/-! ## Binary bracket search (`consav/linear_interp.py`, `binary_search`) -/

/-- Fuelled version of the interval-halving `while half:` loop inside
`binary_search`.  State: `imin` (current left index) and `Nx` (size of the
active range).  Returns `none` when the fuel runs out before the loop
exits. -/
def bsLoopF : ℕ → List ℚ → ℚ → ℕ → ℕ → Option ℕ
  | 0, _, _, _, _ => none
  | fuel+1, x, xi, imin, Nx =>
    if Nx / 2 = 0 then some imin
    else
      let half := Nx / 2
      let imid := imin + half
      bsLoopF fuel x xi (if x.getD imid 0 ≤ xi then imid else imin) (Nx - half)

/-- The interval-halving loop of `binary_search`, run with enough fuel
(`Nx + 1` always suffices, see `bsLoopF_fuel_adequate`). -/
def bsLoop (x : List ℚ) (xi : ℚ) (imin Nx : ℕ) : ℕ :=
  (bsLoopF (Nx + 1) x xi imin Nx).getD imin

/-- Faithful embedding of `binary_search(imin, Nx, x, xi)`:
clamp below to `0`, clamp above to `Nx-2`, otherwise interval halving. -/
def binary_search (imin Nx : ℕ) (x : List ℚ) (xi : ℚ) : ℕ :=
  if xi ≤ x.getD 0 0 then 0
  else if x.getD (Nx - 2) 0 ≤ xi then Nx - 2
  else bsLoop x xi imin Nx

lemma getD_eq_get (x : List ℚ) (i : ℕ) (h : i < x.length) :
    x.getD i 0 = x.get ⟨i, h⟩ := by
  simp [List.getD_eq_getElem?_getD, List.getElem?_eq_getElem h]

lemma getD_lt_of_chain {x : List ℚ} (hx : List.Chain' (· < ·) x) {i j : ℕ}
    (hij : i < j) (hj : j < x.length) : x.getD i 0 < x.getD j 0 := by
  rw [getD_eq_get x i (lt_trans hij hj), getD_eq_get x j hj]
  exact List.pairwise_iff_get.mp (List.chain'_iff_pairwise.mp hx) _ _ hij

lemma getD_le_of_chain {x : List ℚ} (hx : List.Chain' (· < ·) x) {i j : ℕ}
    (hij : i ≤ j) (hj : j < x.length) : x.getD i 0 ≤ x.getD j 0 := by
  rcases eq_or_lt_of_le hij with h | h
  · subst h; exact le_refl _
  · exact le_of_lt (getD_lt_of_chain hx h hj)

/-- Fuel `Nx` (one unit per loop entry test) is enough for the halving
loop: with `1 ≤ Nx ≤ fuel` the fuelled loop reaches its exit. -/
lemma bsLoopF_fuel_adequate (x : List ℚ) (xi : ℚ) :
    ∀ fuel Nx imin, 1 ≤ Nx → Nx ≤ fuel →
      ∃ r, bsLoopF fuel x xi imin Nx = some r := by
  intro fuel
  induction fuel with
  | zero => intro Nx imin h1 h2; omega
  | succ f ih =>
    intro Nx imin h1 _
    by_cases h0 : Nx / 2 = 0
    · exact ⟨imin, by simp [bsLoopF, h0]⟩
    · have h2 : Nx - Nx / 2 ≤ f := by omega
      obtain ⟨r, hr⟩ := ih (Nx - Nx / 2)
        (if x.getD (imin + Nx / 2) 0 ≤ xi then imin + Nx / 2 else imin) (by omega) h2
      exact ⟨r, by simp only [bsLoopF, if_neg h0]; exact hr⟩

/-- The fuelled loop result does not depend on the fuel, once adequate. -/
lemma bsLoopF_fuel_irrel (x : List ℚ) (xi : ℚ) :
    ∀ f₁ f₂ Nx imin, 1 ≤ Nx → Nx ≤ f₁ → Nx ≤ f₂ →
      bsLoopF f₁ x xi imin Nx = bsLoopF f₂ x xi imin Nx := by
  intro f₁
  induction f₁ with
  | zero => intro f₂ Nx imin h1 h2 _; omega
  | succ f ih =>
    intro f₂ Nx imin h1 h2 h3
    obtain ⟨g, rfl⟩ : ∃ g, f₂ = g + 1 := ⟨f₂ - 1, by omega⟩
    by_cases h0 : Nx / 2 = 0
    · simp [bsLoopF, h0]
    · simp only [bsLoopF, if_neg h0]
      exact ih g (Nx - Nx / 2) _ (by omega) (by omega) (by omega)

lemma bsLoop_eqF (x : List ℚ) (xi : ℚ) (imin Nx fuel : ℕ)
    (h1 : 1 ≤ Nx) (hf : Nx ≤ fuel) :
    bsLoopF fuel x xi imin Nx = some (bsLoop x xi imin Nx) := by
  obtain ⟨r, hr⟩ := bsLoopF_fuel_adequate x xi (Nx + 1) Nx imin h1 (by omega)
  rw [bsLoopF_fuel_irrel x xi fuel (Nx + 1) Nx imin h1 hf (by omega), hr]
  simp [bsLoop, hr]

/-- Bracket invariant of the halving loop on a strictly increasing grid:
starting from `x[imin] ≤ xi`, `imin + Nx ≤ N` and
`imin + Nx < N → xi < x[imin+Nx]`, with the global fact `xi < x[N-2]`,
the loop exits at an index `r` with `x[r] ≤ xi < x[r+1]` and `r+1 < N`. -/
lemma bsLoopF_bracket (x : List ℚ) (xi : ℚ) (hx : List.Chain' (· < ·) x)
    (hN : 2 ≤ x.length) (htop : xi < x.getD (x.length - 2) 0) :
    ∀ fuel Nx imin, 1 ≤ Nx → Nx ≤ fuel →
      x.getD imin 0 ≤ xi → imin + Nx ≤ x.length →
      (imin + Nx < x.length → xi < x.getD (imin + Nx) 0) →
      ∀ r, bsLoopF fuel x xi imin Nx = some r →
        x.getD r 0 ≤ xi ∧ r + 1 < x.length ∧ xi < x.getD (r + 1) 0 := by
  intro fuel
  induction fuel with
  | zero => intro Nx imin h1 h2; omega
  | succ f ih =>
    intro Nx imin h1 h2 hlow hsum himp r hr
    by_cases h0 : Nx / 2 = 0
    · have hNx1 : Nx = 1 := by omega
      have hri : r = imin := by
        simp [bsLoopF, h0] at hr; omega
      subst hri; subst hNx1
      have hr1 : r + 1 < x.length := by
        rcases eq_or_lt_of_le hsum with he | hl
        · exfalso
          have h2d : x.getD (x.length - 2) 0 ≤ x.getD r 0 :=
            getD_le_of_chain hx (by omega) (by omega)
          linarith
        · exact hl
      exact ⟨hlow, hr1, himp hr1⟩
    · simp only [bsLoopF, if_neg h0] at hr
      by_cases hc : x.getD (imin + Nx / 2) 0 ≤ xi
      · rw [if_pos hc] at hr
        refine ih (Nx - Nx / 2) (imin + Nx / 2) (by omega) (by omega) hc (by omega) ?_ r hr
        intro hlt
        have : imin + Nx / 2 + (Nx - Nx / 2) = imin + Nx := by omega
        rw [this] at hlt ⊢
        exact himp hlt
      · rw [if_neg hc] at hr
        refine ih (Nx - Nx / 2) imin (by omega) (by omega) hlow (by omega) ?_ r hr
        intro hlt
        have hmid : xi < x.getD (imin + Nx / 2) 0 := lt_of_not_le hc
        have hle : x.getD (imin + Nx / 2) 0 ≤ x.getD (imin + (Nx - Nx / 2)) 0 :=
          getD_le_of_chain hx (by omega) hlt
        linarith

/-- Bound invariant of the halving loop on an arbitrary grid: given the
global fact `xi < x[N-2]` (entry condition of the loop) and `3 ≤ N`,
starting from `imin < N - 2` and `imin + Nx ≤ N` the loop exit index stays
strictly below `N - 2`. -/
lemma bsLoopF_bound (x : List ℚ) (xi : ℚ)
    (htop : xi < x.getD (x.length - 2) 0) (hN : 3 ≤ x.length) :
    ∀ fuel Nx imin, imin < x.length - 2 → imin + Nx ≤ x.length →
      ∀ r, bsLoopF fuel x xi imin Nx = some r → r < x.length - 2 := by
  intro fuel
  induction fuel with
  | zero => intro Nx imin _ _ r hr; simp [bsLoopF] at hr
  | succ f ih =>
    intro Nx imin hinv hsum r hr
    by_cases h0 : Nx / 2 = 0
    · have : r = imin := by simp [bsLoopF, h0] at hr; omega
      omega
    · simp only [bsLoopF, if_neg h0] at hr
      by_cases hc : x.getD (imin + Nx / 2) 0 ≤ xi
      · rw [if_pos hc] at hr
        have hmid_le : imin + Nx / 2 ≤ x.length - 2 := by omega
        have hmid_ne : imin + Nx / 2 ≠ x.length - 2 := by
          intro he; rw [he] at hc; linarith
        exact ih (Nx - Nx / 2) (imin + Nx / 2) (by omega) (by omega) r hr
      · rw [if_neg hc] at hr
        exact ih (Nx - Nx / 2) imin hinv (by omega) r hr

/-- `binary_search` with the full grid range always returns an index at
most `N - 2`, for any grid contents. -/
lemma binary_search_le (x : List ℚ) (xi : ℚ) (hN : 2 ≤ x.length) :
    binary_search 0 x.length x xi ≤ x.length - 2 := by
  unfold binary_search
  split
  · omega
  · split
    · exact le_refl _
    · rename_i h1 h2
      by_cases h3 : x.length = 2
      · exfalso
        have : x.getD (x.length - 2) 0 = x.getD 0 0 := by rw [h3]
        rw [this] at h2
        rcases le_total xi (x.getD 0 0) with h | h
        · exact h1 h
        · exact h2 h
      · have hN3 : 3 ≤ x.length := by omega
        have := bsLoopF_bound x xi (lt_of_not_le h2) hN3 (x.length + 1) x.length 0
          (by omega) (by omega) (bsLoop x xi 0 x.length)
          (bsLoop_eqF x xi 0 x.length (x.length + 1) (by omega) (by omega))
        omega

/-- Bracket correctness of `binary_search` on a strictly increasing grid,
for queries inside `[x[0], x[N-1]]`. -/
lemma binary_search_bracket (x : List ℚ) (xi : ℚ)
    (hx : List.Chain' (· < ·) x) (hN : 2 ≤ x.length)
    (hlo : x.getD 0 0 ≤ xi) (hhi : xi ≤ x.getD (x.length - 1) 0) :
    x.getD (binary_search 0 x.length x xi) 0 ≤ xi ∧
    xi ≤ x.getD (binary_search 0 x.length x xi + 1) 0 ∧
    binary_search 0 x.length x xi + 1 < x.length := by
  unfold binary_search
  split
  · rename_i h1
    refine ⟨hlo, le_trans h1 (getD_le_of_chain hx (by omega) (by omega)), by omega⟩
  · split
    · rename_i h1 h2
      have he : x.length - 2 + 1 = x.length - 1 := by omega
      rw [he]
      exact ⟨h2, hhi, by omega⟩
    · rename_i h1 h2
      have htop : xi < x.getD (x.length - 2) 0 := lt_of_not_le h2
      have := bsLoopF_bracket x xi hx hN htop (x.length + 1) x.length 0
        (by omega) (by omega) (le_of_lt (lt_of_not_le h1)) (by omega)
        (by omega) (bsLoop x xi 0 x.length)
        (bsLoop_eqF x xi 0 x.length (x.length + 1) (by omega) (by omega))
      exact ⟨this.1, le_of_lt this.2.2, this.2.1⟩

/-- Upper soundness clause of `binary_search`: either the result is the
clamped top bracket `N-2`, or the query is strictly below the bracket's
right endpoint. -/
lemma binary_search_upper (x : List ℚ) (xi : ℚ)
    (hx : List.Chain' (· < ·) x) (hN : 2 ≤ x.length) :
    binary_search 0 x.length x xi = x.length - 2 ∨
      xi < x.getD (binary_search 0 x.length x xi + 1) 0 := by
  unfold binary_search
  split
  · rename_i h1
    by_cases h3 : x.length = 2
    · left; omega
    · right
      exact lt_of_le_of_lt h1 (getD_lt_of_chain hx (by omega) (by omega))
  · split
    · left; rfl
    · rename_i h1 h2
      right
      exact (bsLoopF_bracket x xi hx hN (lt_of_not_le h2) (x.length + 1) x.length 0
        (by omega) (by omega) (le_of_lt (lt_of_not_le h1)) (by omega)
        (by omega) (bsLoop x xi 0 x.length)
        (bsLoop_eqF x xi 0 x.length (x.length + 1) (by omega) (by omega))).2.2

/-- Lower soundness clause of `binary_search`: either the result is the
clamped bottom bracket `0`, or the grid value at the result is at most the
query. -/
lemma binary_search_lower (x : List ℚ) (xi : ℚ)
    (hx : List.Chain' (· < ·) x) (hN : 2 ≤ x.length) :
    binary_search 0 x.length x xi = 0 ∨
      x.getD (binary_search 0 x.length x xi) 0 ≤ xi := by
  unfold binary_search
  split
  · left; rfl
  · split
    · right; assumption
    · rename_i h1 h2
      right
      exact (bsLoopF_bracket x xi hx hN (lt_of_not_le h2) (x.length + 1) x.length 0
        (by omega) (by omega) (le_of_lt (lt_of_not_le h1)) (by omega)
        (by omega) (bsLoop x xi 0 x.length)
        (bsLoop_eqF x xi 0 x.length (x.length + 1) (by omega) (by omega))).1

/-- On a strictly increasing grid the returned bracket index is monotone in
the query. -/
lemma binary_search_mono (x : List ℚ) (x1 x2 : ℚ)
    (hx : List.Chain' (· < ·) x) (hN : 2 ≤ x.length) (h : x1 ≤ x2) :
    binary_search 0 x.length x x1 ≤ binary_search 0 x.length x x2 := by
  by_contra hcon
  push_neg at hcon
  have hj1 : binary_search 0 x.length x x1 ≤ x.length - 2 := binary_search_le x x1 hN
  have hl : x.getD (binary_search 0 x.length x x1) 0 ≤ x1 := by
    rcases binary_search_lower x x1 hx hN with h0 | h0
    · omega
    · exact h0
  have hu : x2 < x.getD (binary_search 0 x.length x x2 + 1) 0 := by
    rcases binary_search_upper x x2 hx hN with h0 | h0
    · omega
    · exact h0
  have hle : x.getD (binary_search 0 x.length x x2 + 1) 0 ≤
      x.getD (binary_search 0 x.length x x1) 0 :=
    getD_le_of_chain hx (by omega) (by omega)
  linarith

/-- C2: for a strictly increasing grid `x` of length `N ≥ 2` and any query
`xi`, `binary_search 0 N x xi` returns `j ≤ N-2`; it returns `0` when
`xi ≤ x[0]` and `N-2` when `xi ≥ x[N-2]`; and whenever
`x[0] < xi < x[N-1]` the bracket property `x[j] ≤ xi ≤ x[j+1]` holds. -/
theorem C2_grid_search_bracket (x : List ℚ) (xi : ℚ)
    (hx : List.Chain' (· < ·) x) (hN : 2 ≤ x.length) :
    binary_search 0 x.length x xi ≤ x.length - 2 ∧
    (xi ≤ x.getD 0 0 → binary_search 0 x.length x xi = 0) ∧
    (x.getD (x.length - 2) 0 ≤ xi → binary_search 0 x.length x xi = x.length - 2) ∧
    (x.getD 0 0 < xi → xi < x.getD (x.length - 1) 0 →
      x.getD (binary_search 0 x.length x xi) 0 ≤ xi ∧
      xi ≤ x.getD (binary_search 0 x.length x xi + 1) 0) := by
  refine ⟨binary_search_le x xi hN, ?_, ?_, ?_⟩
  · intro h1; unfold binary_search; rw [if_pos h1]
  · intro h2
    unfold binary_search
    by_cases h1 : xi ≤ x.getD 0 0
    · rw [if_pos h1]
      by_cases h3 : x.length = 2
      · omega
      · exfalso
        have := getD_lt_of_chain hx (show 0 < x.length - 2 by omega)
          (show x.length - 2 < x.length by omega)
        linarith
    · rw [if_neg h1, if_pos h2]
  · intro hlo hhi
    have := binary_search_bracket x xi hx hN (le_of_lt hlo) (le_of_lt hhi)
    exact ⟨this.1, this.2.1⟩

theorem C2_grid_search_bracket_witness :
    binary_search 0 ([(0:ℚ), 1, 2]).length [(0:ℚ), 1, 2] (3/2) ≤
      ([(0:ℚ), 1, 2]).length - 2 :=
  (C2_grid_search_bracket [(0:ℚ), 1, 2] (3/2) (by simp [List.chain'_cons]) (by simp)).1

/-- C8: the interval-halving loop of `binary_search` terminates: fuel equal
to the initial active-range size `Nx` (one unit per iteration, each of
which strictly shrinks `Nx`) is enough for the fuelled loop to reach its
exit `half = Nx / 2 = 0` and return, for every grid (including the
single-interval case `Nx = 2`) and every query. -/
theorem C8_grid_search_termination (x : List ℚ) (xi : ℚ) (imin Nx fuel : ℕ)
    (h1 : 1 ≤ Nx) (hf : Nx ≤ fuel) :
    bsLoopF fuel x xi imin Nx = some (bsLoop x xi imin Nx) :=
  bsLoop_eqF x xi imin Nx fuel h1 hf

theorem C8_grid_search_termination_witness :
    bsLoopF 2 [(0:ℚ), 1] (1/2) 0 2 = some (bsLoop [(0:ℚ), 1] (1/2) 0 2) :=
  C8_grid_search_termination [(0:ℚ), 1] (1/2) 0 2 2 (by decide) (by decide)

/-! ## Monotone forward advance (`_interp_2d_only_last_vec`, search phase) -/

/-- Fuelled version of the forward-advance loop
`while xi2[i] >= grid2[j2+1] and j2 < grid2.size-2: j2 += 1`. -/
def advanceF : ℕ → List ℚ → ℚ → ℕ → ℕ
  | 0, _, _, j2 => j2
  | fuel+1, grid2, x, j2 =>
    if grid2.getD (j2 + 1) 0 ≤ x ∧ j2 < grid2.length - 2 then
      advanceF fuel grid2 x (j2 + 1)
    else j2

/-- The forward-advance loop with adequate fuel (`grid2.length` iterations
always suffice, since the guard requires `j2 < grid2.length - 2`). -/
def advance (grid2 : List ℚ) (x : ℚ) (j2 : ℕ) : ℕ :=
  advanceF grid2.length grid2 x j2

/-- The forward advance never leaves the valid bracket range: starting from
`j2 ≤ N - 2` it ends at most at `N - 2`, for any fuel, grid and query. -/
lemma advanceF_le (grid2 : List ℚ) (x : ℚ) :
    ∀ fuel j2, j2 ≤ grid2.length - 2 → advanceF fuel grid2 x j2 ≤ grid2.length - 2 := by
  intro fuel
  induction fuel with
  | zero => intro j2 h; exact h
  | succ f ih =>
    intro j2 h
    by_cases hc : grid2.getD (j2 + 1) 0 ≤ x ∧ j2 < grid2.length - 2
    · simp only [advanceF, if_pos hc]
      exact ih (j2 + 1) (by omega)
    · simp only [advanceF, if_neg hc]
      exact h

/-- On a strictly increasing grid, the forward advance started at or below
the binary-search bracket of the query lands exactly on that bracket. -/
lemma advanceF_eq_binary_search (grid2 : List ℚ) (x : ℚ)
    (hg : List.Chain' (· < ·) grid2) (hN : 2 ≤ grid2.length) :
    ∀ fuel j2, j2 ≤ binary_search 0 grid2.length grid2 x →
      grid2.length - 2 ≤ fuel + j2 →
      advanceF fuel grid2 x j2 = binary_search 0 grid2.length grid2 x := by
  intro fuel
  induction fuel with
  | zero =>
    intro j2 hle hfuel
    have hbs := binary_search_le grid2 x hN
    simpa [advanceF] using (by omega : j2 = binary_search 0 grid2.length grid2 x)
  | succ f ih =>
    intro j2 hle hfuel
    rcases eq_or_lt_of_le hle with he | hlt
    · -- already at the bracket: the guard must fail
      have hguard : ¬ (grid2.getD (j2 + 1) 0 ≤ x ∧ j2 < grid2.length - 2) := by
        rintro ⟨hval, hidx⟩
        rcases binary_search_upper grid2 x hg hN with h0 | h0
        · omega
        · rw [← he] at h0; linarith
      simp only [advanceF, if_neg hguard]
      exact he
    · -- strictly below the bracket: the guard holds and we advance
      have hbs_le : binary_search 0 grid2.length grid2 x ≤ grid2.length - 2 :=
        binary_search_le grid2 x hN
      have hlow : grid2.getD (binary_search 0 grid2.length grid2 x) 0 ≤ x := by
        rcases binary_search_lower grid2 x hg hN with h0 | h0
        · omega
        · exact h0
      have hval : grid2.getD (j2 + 1) 0 ≤ x :=
        le_trans (getD_le_of_chain hg (by omega) (by omega)) hlow
      simp only [advanceF, if_pos (And.intro hval (by omega : j2 < grid2.length - 2))]
      exact ih (j2 + 1) (by omega) (by omega)

/-- Last-dimension search phase of `_interp_2d_only_last_vec`: for each
query in order, either advance from the previously stored bracket
(monotone mode) or run a fresh binary search.  The first query always uses
binary search (the code's `monotone and i > 0` test). -/
def searchGo (monotone : Bool) (grid2 : List ℚ) : ℕ → List ℚ → List ℕ
  | _, [] => []
  | prev, xq :: rest =>
    let j := if monotone then advance grid2 xq prev
             else binary_search 0 grid2.length grid2 xq
    j :: searchGo monotone grid2 j rest

def searchJs (monotone : Bool) (grid2 : List ℚ) (xi2 : List ℚ) : List ℕ :=
  match xi2 with
  | [] => []
  | xq :: rest =>
    let j := binary_search 0 grid2.length grid2 xq
    j :: searchGo monotone grid2 j rest

lemma searchGo_length (monotone : Bool) (grid2 : List ℚ) :
    ∀ xs prev, (searchGo monotone grid2 prev xs).length = xs.length := by
  intro xs
  induction xs with
  | nil => intro prev; rfl
  | cons xq rest ih => intro prev; simp [searchGo, ih]

lemma searchJs_length (monotone : Bool) (grid2 : List ℚ) (xi2 : List ℚ) :
    (searchJs monotone grid2 xi2).length = xi2.length := by
  cases xi2 with
  | nil => rfl
  | cons xq rest => simp [searchJs, searchGo_length]

lemma searchGo_false (grid2 : List ℚ) :
    ∀ xs prev, searchGo false grid2 prev xs =
      xs.map (binary_search 0 grid2.length grid2) := by
  intro xs
  induction xs with
  | nil => intro prev; rfl
  | cons xq rest ih => intro prev; simp [searchGo, ih]

lemma searchJs_false (grid2 : List ℚ) (xi2 : List ℚ) :
    searchJs false grid2 xi2 = xi2.map (binary_search 0 grid2.length grid2) := by
  cases xi2 with
  | nil => rfl
  | cons xq rest => simp [searchJs, searchGo_false]

lemma searchGo_true (grid2 : List ℚ) (hg : List.Chain' (· < ·) grid2)
    (hN : 2 ≤ grid2.length) :
    ∀ xs xprev, List.Chain' (· ≤ ·) (xprev :: xs) →
      searchGo true grid2 (binary_search 0 grid2.length grid2 xprev) xs =
        xs.map (binary_search 0 grid2.length grid2) := by
  intro xs
  induction xs with
  | nil => intro xprev _; rfl
  | cons xq rest ih =>
    intro xprev hchain
    have hstep : xprev ≤ xq := List.chain'_cons.mp hchain |>.1
    have hadv : advance grid2 xq (binary_search 0 grid2.length grid2 xprev) =
        binary_search 0 grid2.length grid2 xq := by
      unfold advance
      refine advanceF_eq_binary_search grid2 xq hg hN grid2.length _
        (binary_search_mono grid2 xprev xq hg hN hstep) (by omega)
    show (advance grid2 xq (binary_search 0 grid2.length grid2 xprev)) ::
        searchGo true grid2 (advance grid2 xq (binary_search 0 grid2.length grid2 xprev)) rest =
      List.map (binary_search 0 grid2.length grid2) (xq :: rest)
    rw [hadv, List.map_cons, ih xq (List.chain'_cons.mp hchain).2]

/-- In monotone mode with non-decreasing queries, the search phase stores
exactly the binary-search brackets. -/
lemma searchJs_true (grid2 : List ℚ) (xi2 : List ℚ)
    (hg : List.Chain' (· < ·) grid2) (hN : 2 ≤ grid2.length)
    (hmon : List.Chain' (· ≤ ·) xi2) :
    searchJs true grid2 xi2 = xi2.map (binary_search 0 grid2.length grid2) := by
  cases xi2 with
  | nil => rfl
  | cons xq rest =>
    simp only [searchJs, List.map_cons]
    rw [searchGo_true grid2 hg hN rest xq hmon]

/-- C10: the monotone forward-advance loop preserves the bracket bounds.
First part: from any starting bracket `p ≤ N-2` the advance loop (which
increments only while `xi2[i] ≥ grid2[j2+1]` and `j2 < N-2`) returns a
bracket `≤ N-2` for any fuel, grid and query; second part: every bracket
stored by the monotone search phase is `≤ N-2`, so the accesses
`grid2[j2+1]` and `value[.., j2+k2]` stay in bounds even for queries at or
beyond the top of `grid2`. -/
theorem C10_monotone_search_bounds :
    (∀ (grid2 : List ℚ) (x : ℚ) (fuel p : ℕ), p ≤ grid2.length - 2 →
      advanceF fuel grid2 x p ≤ grid2.length - 2) ∧
    (∀ (grid2 : List ℚ) (xi2 : List ℚ), 2 ≤ grid2.length →
      ∀ j ∈ searchJs true grid2 xi2, j ≤ grid2.length - 2) := by
  constructor
  · intro grid2 x fuel p hp
    exact advanceF_le grid2 x fuel p hp
  · intro grid2 xi2 hN j hj
    cases xi2 with
    | nil => simp [searchJs] at hj
    | cons xq rest =>
      simp only [searchJs, List.mem_cons] at hj
      have hhead : binary_search 0 grid2.length grid2 xq ≤ grid2.length - 2 :=
        binary_search_le grid2 xq hN
      rcases hj with h | h
      · omega
      · -- membership in the tail: inductive bound on searchGo
        have : ∀ (xs : List ℚ) (p : ℕ), p ≤ grid2.length - 2 →
            ∀ j ∈ searchGo true grid2 p xs, j ≤ grid2.length - 2 := by
          intro xs
          induction xs with
          | nil => intro p _ j hj; simp [searchGo] at hj
          | cons y ys ih =>
            intro p hp j hj
            have hcons : searchGo true grid2 p (y :: ys) =
                advance grid2 y p :: searchGo true grid2 (advance grid2 y p) ys := rfl
            rw [hcons, List.mem_cons] at hj
            have hadv : advance grid2 y p ≤ grid2.length - 2 :=
              advanceF_le grid2 y grid2.length p hp
            rcases hj with h | h
            · omega
            · exact ih (advance grid2 y p) hadv j h
        exact this rest _ hhead j h

theorem C10_monotone_search_bounds_witness :
    advanceF 3 [(0:ℚ), 1, 2] 5 1 ≤ [(0:ℚ), 1, 2].length - 2 :=
  C10_monotone_search_bounds.1 [(0:ℚ), 1, 2] 5 3 1 (by decide)

/-! ## 2D multilinear interpolation (`consav/linear_interp_2d.py`) -/

/-- Faithful embedding of `_interp_2d(grid1, grid2, value, xi1, xi2, j1, j2)`:
the 4-corner weighted sum (accumulated in the code's `k1`/`k2` loop order)
divided by the product of the bracket widths. -/
def _interp_2d (grid1 grid2 : List ℚ) (value : List (List ℚ))
    (xi1 xi2 : ℚ) (j1 j2 : ℕ) : ℚ :=
  let nom_1_left := grid1.getD (j1 + 1) 0 - xi1
  let nom_1_right := xi1 - grid1.getD j1 0
  let nom_2_left := grid2.getD (j2 + 1) 0 - xi2
  let nom_2_right := xi2 - grid2.getD j2 0
  let denom := (grid1.getD (j1 + 1) 0 - grid1.getD j1 0) *
    (grid2.getD (j2 + 1) 0 - grid2.getD j2 0)
  let nom :=
    nom_1_left * nom_2_left * (value.getD j1 []).getD j2 0
    + nom_1_left * nom_2_right * (value.getD j1 []).getD (j2 + 1) 0
    + nom_1_right * nom_2_left * (value.getD (j1 + 1) []).getD j2 0
    + nom_1_right * nom_2_right * (value.getD (j1 + 1) []).getD (j2 + 1) 0
  nom / denom

/-- Faithful embedding of `interp_2d`: binary search in each dimension,
then `_interp_2d`. -/
def interp_2d (grid1 grid2 : List ℚ) (value : List (List ℚ))
    (xi1 xi2 : ℚ) : ℚ :=
  _interp_2d grid1 grid2 value xi1 xi2
    (binary_search 0 grid1.length grid1 xi1)
    (binary_search 0 grid2.length grid2 xi2)

/-- The bilinear interpolant as the specification words it: the sum over
the `2^2` tensor corners, the weight on axis `i` being
`grid_i[j_i+1] - xi_i` for a low-side corner and `xi_i - grid_i[j_i]` for a
high-side corner, normalized by the product of the axis interval widths. -/
def specBilinear (grid1 grid2 : List ℚ) (value : List (List ℚ))
    (xi1 xi2 : ℚ) (j1 j2 : ℕ) : ℚ :=
  (∑ k1 ∈ Finset.range 2, ∑ k2 ∈ Finset.range 2,
    (if k1 = 0 then grid1.getD (j1 + 1) 0 - xi1 else xi1 - grid1.getD j1 0) *
    (if k2 = 0 then grid2.getD (j2 + 1) 0 - xi2 else xi2 - grid2.getD j2 0) *
    (value.getD (j1 + k1) []).getD (j2 + k2) 0) /
  ((grid1.getD (j1 + 1) 0 - grid1.getD j1 0) *
    (grid2.getD (j2 + 1) 0 - grid2.getD j2 0))

lemma _interp_2d_eq_specBilinear (grid1 grid2 : List ℚ) (value : List (List ℚ))
    (xi1 xi2 : ℚ) (j1 j2 : ℕ) :
    _interp_2d grid1 grid2 value xi1 xi2 j1 j2 =
      specBilinear grid1 grid2 value xi1 xi2 j1 j2 := by
  simp only [_interp_2d, specBilinear, Finset.sum_range_succ, Finset.sum_range_zero]
  norm_num
  ring_nf

/-- Interpolating at a pair of grid nodes adjacent to the bracket recovers
the stored value. -/
lemma _interp_2d_node (grid1 grid2 : List ℚ) (value : List (List ℚ))
    (j1 j2 i1 i2 : ℕ)
    (w1 : grid1.getD (j1 + 1) 0 - grid1.getD j1 0 ≠ 0)
    (w2 : grid2.getD (j2 + 1) 0 - grid2.getD j2 0 ≠ 0)
    (h1 : i1 = j1 ∨ i1 = j1 + 1) (h2 : i2 = j2 ∨ i2 = j2 + 1) :
    _interp_2d grid1 grid2 value (grid1.getD i1 0) (grid2.getD i2 0) j1 j2 =
      (value.getD i1 []).getD i2 0 := by
  rcases h1 with h1 | h1 <;> rcases h2 with h2 | h2 <;> subst h1 <;> subst h2 <;>
    · simp only [_interp_2d]
      rw [div_eq_iff (mul_ne_zero w1 w2)]
      ring

/-- On a strictly increasing grid, the searched bracket of a node value is
the node index or its predecessor. -/
lemma binary_search_node (g : List ℚ) (i : ℕ)
    (hg : List.Chain' (· < ·) g) (hN : 2 ≤ g.length) (hi : i < g.length) :
    i = binary_search 0 g.length g (g.getD i 0) ∨
      i = binary_search 0 g.length g (g.getD i 0) + 1 := by
  have hbr := binary_search_bracket g (g.getD i 0) hg hN
    (getD_le_of_chain hg (by omega) hi)
    (getD_le_of_chain hg (by omega) (by omega))
  by_contra hcon
  push_neg at hcon
  rcases Nat.lt_or_ge i (binary_search 0 g.length g (g.getD i 0)) with h | h
  · have := getD_lt_of_chain hg h (by omega)
    linarith [hbr.1]
  · have hgt : binary_search 0 g.length g (g.getD i 0) + 1 < i := by omega
    have := getD_lt_of_chain hg hgt hi
    linarith [hbr.2.1]

/-- C5: `interp_2d` computes the exact tensor-product bilinear interpolant
(the 4-corner weighted sum of the specification, at the searched brackets);
consequently it is exact at grid nodes, and on the grids `[0,1] × [0,1]`
with values `[[0,1],[1,2]]` it returns `1` at `(1/2, 1/2)`. -/
theorem C5_bilinear_correctness :
    (∀ (grid1 grid2 : List ℚ) (value : List (List ℚ)) (xi1 xi2 : ℚ),
      interp_2d grid1 grid2 value xi1 xi2 =
        specBilinear grid1 grid2 value xi1 xi2
          (binary_search 0 grid1.length grid1 xi1)
          (binary_search 0 grid2.length grid2 xi2)) ∧
    (∀ (grid1 grid2 : List ℚ) (value : List (List ℚ)) (i1 i2 : ℕ),
      List.Chain' (· < ·) grid1 → List.Chain' (· < ·) grid2 →
      2 ≤ grid1.length → 2 ≤ grid2.length →
      i1 < grid1.length → i2 < grid2.length →
      interp_2d grid1 grid2 value (grid1.getD i1 0) (grid2.getD i2 0) =
        (value.getD i1 []).getD i2 0) ∧
    interp_2d [(0:ℚ), 1] [(0:ℚ), 1] [[0, 1], [1, 2]] (1/2) (1/2) = 1 := by
  refine ⟨?_, ?_, ?_⟩
  · intro grid1 grid2 value xi1 xi2
    exact _interp_2d_eq_specBilinear grid1 grid2 value xi1 xi2 _ _
  · intro grid1 grid2 value i1 i2 hg1 hg2 hN1 hN2 hi1 hi2
    have hb1 := binary_search_bracket grid1 (grid1.getD i1 0) hg1 hN1
      (getD_le_of_chain hg1 (by omega) hi1)
      (getD_le_of_chain hg1 (by omega) (by omega))
    have hb2 := binary_search_bracket grid2 (grid2.getD i2 0) hg2 hN2
      (getD_le_of_chain hg2 (by omega) hi2)
      (getD_le_of_chain hg2 (by omega) (by omega))
    have hn1 := binary_search_node grid1 i1 hg1 hN1 hi1
    have hn2 := binary_search_node grid2 i2 hg2 hN2 hi2
    unfold interp_2d
    refine _interp_2d_node grid1 grid2 value _ _ i1 i2 ?_ ?_
      (by omega) (by omega)
    · exact ne_of_gt (sub_pos.mpr (getD_lt_of_chain hg1 (by omega) hb1.2.2))
    · exact ne_of_gt (sub_pos.mpr (getD_lt_of_chain hg2 (by omega) hb2.2.2))
  · norm_num [interp_2d, _interp_2d, binary_search, bsLoop, bsLoopF]

theorem C5_bilinear_correctness_witness :
    interp_2d [(0:ℚ), 1] [(0:ℚ), 1] [[0, 1], [1, 2]]
        ([(0:ℚ), 1].getD 1 0) ([(0:ℚ), 1].getD 1 0) =
      (([[(0:ℚ), 1], [1, 2]]).getD 1 []).getD 1 0 :=
  C5_bilinear_correctness.2.1 [(0:ℚ), 1] [(0:ℚ), 1] [[0, 1], [1, 2]] 1 1
    (by simp [List.chain'_cons]) (by simp [List.chain'_cons])
    (by simp) (by simp) (by simp) (by simp)

/-! ## Prepared "only-last-dimension" variants (`linear_interp_2d.py`) -/

lemma getD_map_range (f : ℕ → ℚ) (n i : ℕ) (h : i < n) :
    ((List.range n).map f).getD i 0 = f i := by
  simp [List.getD_eq_getElem?_getD, List.getElem?_map, List.getElem?_range h]

lemma getD_map_of_lt (f : ℚ → ℕ) (xs : List ℚ) (i : ℕ) (h : i < xs.length) :
    (xs.map f).getD i 0 = f (xs.getD i 0) := by
  simp [List.getD_eq_getElem?_getD, List.getElem?_map, List.getElem?_eq_getElem h]

lemma getD_append_length (l : List ℕ) (j n : ℕ) (h : l.length = n) :
    (l ++ [j]).getD n 0 = j := by
  subst h
  simp [List.getD_eq_getElem?_getD, List.getElem?_append_right]

lemma take_append_length (l : List ℕ) (j n : ℕ) (h : l.length = n) :
    (l ++ [j]).take n = l := by
  subst h; simp [List.take_left]

/-- Faithful embedding of `interp_2d_prep(grid1, xi1, Nyi)`: a bracket
buffer of `1 + Nyi` integers, initialized to zero, whose slot `Nyi` holds
the bracket of the shared first coordinate. -/
def interp_2d_prep (grid1 : List ℚ) (xi1 : ℚ) (Nyi : ℕ) : List ℕ :=
  List.replicate Nyi 0 ++ [binary_search 0 grid1.length grid1 xi1]

/-- Per-query value computed by the fused accumulation loops of
`_interp_2d_only_last_vec` (steps b and c of the code): the same 4-corner
sum, accumulated for each query `i` in the order `k1 = 0, 1` with
`k2 = 0, 1` inside, then divided by the product of the bracket widths. -/
def onlyLastVal (grid1 grid2 : List ℚ) (value : List (List ℚ))
    (xi1 : ℚ) (j1 : ℕ) (x2 : ℚ) (j2 : ℕ) : ℚ :=
  let nom_1_left := grid1.getD (j1 + 1) 0 - xi1
  let nom_1_right := xi1 - grid1.getD j1 0
  let nom_2_left := grid2.getD (j2 + 1) 0 - x2
  let nom_2_right := x2 - grid2.getD j2 0
  (nom_1_left * nom_2_left * (value.getD j1 []).getD j2 0
    + nom_1_left * nom_2_right * (value.getD j1 []).getD (j2 + 1) 0
    + nom_1_right * nom_2_left * (value.getD (j1 + 1) []).getD j2 0
    + nom_1_right * nom_2_right * (value.getD (j1 + 1) []).getD (j2 + 1) 0)
  / ((grid1.getD (j1 + 1) 0 - grid1.getD j1 0) *
      (grid2.getD (j2 + 1) 0 - grid2.getD j2 0))

lemma onlyLastVal_eq_interp (grid1 grid2 : List ℚ) (value : List (List ℚ))
    (xi1 : ℚ) (j1 : ℕ) (x2 : ℚ) (j2 : ℕ) :
    onlyLastVal grid1 grid2 value xi1 j1 x2 j2 =
      _interp_2d grid1 grid2 value xi1 x2 j1 j2 := rfl

/-- Faithful embedding of `_interp_2d_only_last_vec`: read the shared
bracket `j1` from slot `Nyi` of `prep`; when `search` is set fill
`prep[0..Nyi)` with last-dimension brackets (forward advance from the
previous slot in monotone mode, binary search otherwise), and compute each
output by the fused corner accumulation.  Returns the updated `prep`
together with the outputs. -/
def _interp_2d_only_last_vec (prep : List ℕ) (grid1 grid2 : List ℚ)
    (value : List (List ℚ)) (xi1 : ℚ) (xi2 : List ℚ)
    (monotone search : Bool) : List ℕ × List ℚ :=
  let Nyi := xi2.length
  let j1 := prep.getD Nyi 0
  let js := if search then searchJs monotone grid2 xi2 else prep.take Nyi
  (js ++ [j1],
    (List.range Nyi).map fun i =>
      onlyLastVal grid1 grid2 value xi1 j1 (xi2.getD i 0) (js.getD i 0))

def interp_2d_only_last_vec (prep : List ℕ) (grid1 grid2 : List ℚ)
    (value : List (List ℚ)) (xi1 : ℚ) (xi2 : List ℚ) : List ℕ × List ℚ :=
  _interp_2d_only_last_vec prep grid1 grid2 value xi1 xi2 false true

def interp_2d_only_last_vec_mon (prep : List ℕ) (grid1 grid2 : List ℚ)
    (value : List (List ℚ)) (xi1 : ℚ) (xi2 : List ℚ) : List ℕ × List ℚ :=
  _interp_2d_only_last_vec prep grid1 grid2 value xi1 xi2 true true

def interp_2d_only_last_vec_mon_rep (prep : List ℕ) (grid1 grid2 : List ℚ)
    (value : List (List ℚ)) (xi1 : ℚ) (xi2 : List ℚ) : List ℕ × List ℚ :=
  _interp_2d_only_last_vec prep grid1 grid2 value xi1 xi2 true false

lemma only_last_vec_snd_getD (prep : List ℕ) (grid1 grid2 : List ℚ)
    (value : List (List ℚ)) (xi1 : ℚ) (xi2 : List ℚ)
    (monotone search : Bool) (i : ℕ) (hi : i < xi2.length) :
    ((_interp_2d_only_last_vec prep grid1 grid2 value xi1 xi2 monotone search).2).getD i 0 =
      onlyLastVal grid1 grid2 value xi1 (prep.getD xi2.length 0) (xi2.getD i 0)
        ((if search then searchJs monotone grid2 xi2 else prep.take xi2.length).getD i 0) := by
  simp only [_interp_2d_only_last_vec]
  exact getD_map_range _ _ i hi

/-- C3: the prepared evaluation paths agree elementwise with direct
single-point evaluation: the plain prepared path always; the monotone
prepared path on strictly increasing grids when the last-dimension query
batch is non-decreasing; and the no-search path run on the bracket buffer
produced by a previous monotone prepared call, under the same
precondition. -/
theorem C3_prepared_path_equivalence :
    (∀ (grid1 grid2 : List ℚ) (value : List (List ℚ)) (xi1 : ℚ)
        (xi2 : List ℚ) (i : ℕ), i < xi2.length →
      ((interp_2d_only_last_vec (interp_2d_prep grid1 xi1 xi2.length)
          grid1 grid2 value xi1 xi2).2).getD i 0 =
        interp_2d grid1 grid2 value xi1 (xi2.getD i 0)) ∧
    (∀ (grid1 grid2 : List ℚ) (value : List (List ℚ)) (xi1 : ℚ)
        (xi2 : List ℚ) (i : ℕ),
      List.Chain' (· < ·) grid2 → 2 ≤ grid2.length →
      List.Chain' (· ≤ ·) xi2 → i < xi2.length →
      ((interp_2d_only_last_vec_mon (interp_2d_prep grid1 xi1 xi2.length)
          grid1 grid2 value xi1 xi2).2).getD i 0 =
        interp_2d grid1 grid2 value xi1 (xi2.getD i 0)) ∧
    (∀ (grid1 grid2 : List ℚ) (value : List (List ℚ)) (xi1 : ℚ)
        (xi2 : List ℚ) (i : ℕ),
      List.Chain' (· < ·) grid2 → 2 ≤ grid2.length →
      List.Chain' (· ≤ ·) xi2 → i < xi2.length →
      ((interp_2d_only_last_vec_mon_rep
          ((interp_2d_only_last_vec_mon (interp_2d_prep grid1 xi1 xi2.length)
            grid1 grid2 value xi1 xi2).1)
          grid1 grid2 value xi1 xi2).2).getD i 0 =
        interp_2d grid1 grid2 value xi1 (xi2.getD i 0)) := by
  have hprep : ∀ (grid1 : List ℚ) (xi1 : ℚ) (n : ℕ),
      (interp_2d_prep grid1 xi1 n).getD n 0 = binary_search 0 grid1.length grid1 xi1 := by
    intro grid1 xi1 n
    exact getD_append_length _ _ n (List.length_replicate n 0)
  refine ⟨?_, ?_, ?_⟩
  · intro grid1 grid2 value xi1 xi2 i hi
    rw [interp_2d_only_last_vec, only_last_vec_snd_getD _ _ _ _ _ _ _ _ i hi]
    rw [if_pos rfl, searchJs_false, hprep,
      getD_map_of_lt (binary_search 0 grid2.length grid2) xi2 i hi]
    rfl
  · intro grid1 grid2 value xi1 xi2 i hg2 hN2 hmon hi
    rw [interp_2d_only_last_vec_mon, only_last_vec_snd_getD _ _ _ _ _ _ _ _ i hi]
    rw [if_pos rfl, searchJs_true grid2 xi2 hg2 hN2 hmon, hprep,
      getD_map_of_lt (binary_search 0 grid2.length grid2) xi2 i hi]
    rfl
  · intro grid1 grid2 value xi1 xi2 i hg2 hN2 hmon hi
    rw [interp_2d_only_last_vec_mon_rep, only_last_vec_snd_getD _ _ _ _ _ _ _ _ i hi]
    have hfst : (interp_2d_only_last_vec_mon (interp_2d_prep grid1 xi1 xi2.length)
        grid1 grid2 value xi1 xi2).1 =
        searchJs true grid2 xi2 ++ [binary_search 0 grid1.length grid1 xi1] := by
      rw [interp_2d_only_last_vec_mon]
      simp only [_interp_2d_only_last_vec, if_pos rfl]
      simp [interp_2d_prep, List.getElem?_append_right]
    rw [hfst]
    have hlen : (searchJs true grid2 xi2).length = xi2.length :=
      searchJs_length true grid2 xi2
    rw [if_neg (by simp), getD_append_length _ _ _ hlen, take_append_length _ _ _ hlen,
      searchJs_true grid2 xi2 hg2 hN2 hmon,
      getD_map_of_lt (binary_search 0 grid2.length grid2) xi2 i hi]
    rfl

theorem C3_prepared_path_equivalence_witness :
    ((interp_2d_only_last_vec (interp_2d_prep [(0:ℚ), 1] (1/2) [(1:ℚ)/2].length)
        [(0:ℚ), 1] [(0:ℚ), 1] [[0, 1], [1, 2]] (1/2) [(1:ℚ)/2]).2).getD 0 0 =
      interp_2d [(0:ℚ), 1] [(0:ℚ), 1] [[0, 1], [1, 2]] (1/2) ([(1:ℚ)/2].getD 0 0) :=
  C3_prepared_path_equivalence.1 [(0:ℚ), 1] [(0:ℚ), 1] [[0, 1], [1, 2]]
    (1/2) [(1:ℚ)/2] 0 (by simp)

/-! ## Non-convex upper envelope (`consav/upperenvelope.py`) -/

/-- Output cell of the upper envelope for one target index: consumption and
value-of-choice, the latter in `WithBot ℚ` so that `⊥` models the `-np.inf`
sentinel. -/
abbrev Cell : Type := ℚ × WithBot ℚ

/-- Input arrays of one `upperenvelope` invocation. -/
structure EGMIn where
  grid_a : List ℚ
  m_vec : List ℚ
  c_vec : List ℚ
  inv_w_vec : List ℚ
  grid_m : List ℚ

/-- Value-of-choice recombination: utility of consumption plus the
continuation term, entered as `-1/w` when `use_inv_w` is set and as `w`
otherwise. -/
def valueOf (ufunc : ℚ → ℚ) (use_inv_w : Bool) (c w : ℚ) : ℚ :=
  if use_inv_w then ufunc c + (-1 / w) else ufunc c + w

/-- Fuelled embedding of the constrained-region `while` loop
(`while im < Nm and grid_m[im] <= m_vec[0]`): consume everything
(`c_ast_vec[im] = grid_m[im]`) and recombine the value with the first
continuation entry. -/
def constrLoopF (ufunc : ℚ → ℚ) (use_inv_w : Bool) (P : EGMIn) :
    ℕ → (ℕ → Cell) → ℕ → (ℕ → Cell)
  | 0, s, _ => s
  | fuel+1, s, im =>
    if im < P.grid_m.length ∧ P.grid_m.getD im 0 ≤ P.m_vec.getD 0 0 then
      let m := P.grid_m.getD im 0
      let v := valueOf ufunc use_inv_w m (P.inv_w_vec.getD 0 0)
      constrLoopF ufunc use_inv_w P fuel
        (fun k => if k = im then (m, (v : WithBot ℚ)) else s k) (im + 1)
    else s

/-- One iteration of the envelope scan (`for ia in range(Na-1)`), acting on
the whole output state: skip the pair when its asset endpoints are
inverted, otherwise interpolate (or extrapolate above, on the last pair
only) every covered target point and keep the candidate if its value
strictly improves the stored one. -/
def segStep (ufunc : ℚ → ℚ) (use_inv_w : Bool) (P : EGMIn)
    (s : ℕ → Cell) (ia : ℕ) : ℕ → Cell :=
  let Na := P.grid_a.length
  let a_low := P.grid_a.getD ia 0
  let a_high := P.grid_a.getD (ia + 1) 0
  let inv_w_low := P.inv_w_vec.getD ia 0
  let inv_w_high := P.inv_w_vec.getD (ia + 1) 0
  if a_low > a_high then s
  else
    let inv_w_slope := (inv_w_high - inv_w_low) / (a_high - a_low)
    let m_low := P.m_vec.getD ia 0
    let m_high := P.m_vec.getD (ia + 1) 0
    let c_low := P.c_vec.getD ia 0
    let c_high := P.c_vec.getD (ia + 1) 0
    let c_slope := (c_high - c_low) / (m_high - m_low)
    fun im =>
      if im < P.grid_m.length then
        let m := P.grid_m.getD im 0
        if (m_low ≤ m ∧ m ≤ m_high) ∨ (ia = Na - 2 ∧ P.m_vec.getD (Na - 1) 0 < m) then
          let c_guess := c_low + c_slope * (m - m_low)
          let a_guess := m - c_guess
          let inv_w := inv_w_low + inv_w_slope * (a_guess - a_low)
          let v_guess := valueOf ufunc use_inv_w c_guess inv_w
          if (s im).2 < ((v_guess : ℚ) : WithBot ℚ) then (c_guess, ((v_guess : ℚ) : WithBot ℚ))
          else s im
        else s im
      else s im

/-- Faithful embedding of `upperenvelope`: overwrite both outputs
(`c_ast_vec[:] = 0`, `v_ast_vec[:] = -inf` — the initial buffer contents
`c_ast_init`, `v_ast_init` are discarded), run the constrained-region
loop, then the envelope scan over all consecutive asset pairs. -/
def upperenvelope (ufunc : ℚ → ℚ) (use_inv_w : Bool) (P : EGMIn)
    (c_ast_init : ℕ → ℚ) (v_ast_init : ℕ → WithBot ℚ) : ℕ → Cell :=
  let s0 : ℕ → Cell := fun _ => (0, (⊥ : WithBot ℚ))
  let s1 := constrLoopF ufunc use_inv_w P P.grid_m.length s0 0
  (List.range (P.grid_a.length - 1)).foldl (segStep ufunc use_inv_w P) s1

/-- Consumption output array of `upperenvelope`, aligned with `grid_m`. -/
def c_ast_vec (ufunc : ℚ → ℚ) (use_inv_w : Bool) (P : EGMIn)
    (c_ast_init : ℕ → ℚ) (v_ast_init : ℕ → WithBot ℚ) : List ℚ :=
  (List.range P.grid_m.length).map fun im =>
    (upperenvelope ufunc use_inv_w P c_ast_init v_ast_init im).1

/-- Value output array of `upperenvelope`, aligned with `grid_m`. -/
def v_ast_vec (ufunc : ℚ → ℚ) (use_inv_w : Bool) (P : EGMIn)
    (c_ast_init : ℕ → ℚ) (v_ast_init : ℕ → WithBot ℚ) : List (WithBot ℚ) :=
  (List.range P.grid_m.length).map fun im =>
    (upperenvelope ufunc use_inv_w P c_ast_init v_ast_init im).2

/-- Raw candidate produced at target index `im` by the knot pair
`(ia, ia+1)`: `none` when the pair is skipped (inverted asset endpoints)
or does not cover `grid_m[im]` (interpolation, or extrapolation above for
the last pair); otherwise the interpolated consumption together with the
interpolated continuation input `w`.  Flag- and utility-independent. -/
def rawSegCandidate (P : EGMIn) (ia im : ℕ) : Option (ℚ × ℚ) :=
  let Na := P.grid_a.length
  let a_low := P.grid_a.getD ia 0
  let a_high := P.grid_a.getD (ia + 1) 0
  if a_low > a_high then none
  else
    let inv_w_low := P.inv_w_vec.getD ia 0
    let inv_w_high := P.inv_w_vec.getD (ia + 1) 0
    let inv_w_slope := (inv_w_high - inv_w_low) / (a_high - a_low)
    let m_low := P.m_vec.getD ia 0
    let m_high := P.m_vec.getD (ia + 1) 0
    let c_low := P.c_vec.getD ia 0
    let c_high := P.c_vec.getD (ia + 1) 0
    let c_slope := (c_high - c_low) / (m_high - m_low)
    let m := P.grid_m.getD im 0
    if (m_low ≤ m ∧ m ≤ m_high) ∨ (ia = Na - 2 ∧ P.m_vec.getD (Na - 1) 0 < m) then
      let c_guess := c_low + c_slope * (m - m_low)
      let a_guess := m - c_guess
      some (c_guess, inv_w_low + inv_w_slope * (a_guess - a_low))
    else none

/-- Raw constrained-region candidate at target index `im`: consume
everything, continuation input `inv_w_vec[0]` — present exactly when
`grid_m[im] ≤ m_vec[0]`. -/
def rawConstrained (P : EGMIn) (im : ℕ) : List (ℚ × ℚ) :=
  if P.grid_m.getD im 0 ≤ P.m_vec.getD 0 0 then
    [(P.grid_m.getD im 0, P.inv_w_vec.getD 0 0)]
  else []

/-- All raw candidates at target index `im`, in the order the scan
produces them: the constrained candidate first, then one candidate per
non-skipped covering knot pair in increasing `ia`. -/
def rawCandidates (P : EGMIn) (im : ℕ) : List (ℚ × ℚ) :=
  rawConstrained P im ++
    (List.range (P.grid_a.length - 1)).filterMap fun ia => rawSegCandidate P ia im

/-- Valuation of a raw candidate: keep the consumption, recombine the
value from utility and continuation input. -/
def candVal (ufunc : ℚ → ℚ) (use_inv_w : Bool) (cw : ℚ × ℚ) : ℚ × ℚ :=
  (cw.1, valueOf ufunc use_inv_w cw.1 cw.2)

/-- The valued candidate list at target index `im`. -/
def candidateList (ufunc : ℚ → ℚ) (use_inv_w : Bool) (P : EGMIn) (im : ℕ) :
    List (ℚ × ℚ) :=
  (rawCandidates P im).map (candVal ufunc use_inv_w)

/-- One update of the upper-envelope accumulator by a valued candidate
`(c, v)`: keep the candidate only if its value strictly improves. -/
def stepCand (acc : Cell) (cv : ℚ × ℚ) : Cell :=
  if acc.2 < ((cv.2 : ℚ) : WithBot ℚ) then (cv.1, ((cv.2 : ℚ) : WithBot ℚ)) else acc

/-- Folding the strict-improvement update over a candidate list, from the
sentinel cell `(0, ⊥)`. -/
def selectFold (l : List (ℚ × ℚ)) : Cell := l.foldl stepCand (0, (⊥ : WithBot ℚ))

/-- The maximum value over a list of valued candidates (`⊥` if none). -/
def bestValue (l : List (ℚ × ℚ)) : WithBot ℚ :=
  (l.map fun cv => ((cv.2 : ℚ) : WithBot ℚ)).foldr max ⊥

/-- The consumption of the first candidate attaining the maximum value
(`0` if there is none). -/
def bestPolicy (l : List (ℚ × ℚ)) : ℚ :=
  ((l.find? fun cv => decide (((cv.2 : ℚ) : WithBot ℚ) = bestValue l)).map Prod.fst).getD 0

lemma bestValue_cons (cv : ℚ × ℚ) (t : List (ℚ × ℚ)) :
    bestValue (cv :: t) = max ((cv.2 : ℚ) : WithBot ℚ) (bestValue t) := rfl

/-- Folding the strict-improvement update over a candidate list from any
accumulator: if the best candidate value strictly beats the accumulator,
the result is the first candidate attaining the maximum together with the
maximum; otherwise the accumulator survives. -/
lemma foldl_stepCand (l : List (ℚ × ℚ)) : ∀ acc : Cell,
    l.foldl stepCand acc =
      if acc.2 < bestValue l then
        (((l.find? fun cv => decide (((cv.2 : ℚ) : WithBot ℚ) = bestValue l)).map
            Prod.fst).getD 0,
          bestValue l)
      else acc := by
  induction l with
  | nil =>
    intro acc
    have hb : bestValue ([] : List (ℚ × ℚ)) = ⊥ := rfl
    rw [List.foldl_nil, hb, if_neg (not_lt_bot)]
  | cons cv t ih =>
    intro acc
    rw [List.foldl_cons, ih (stepCand acc cv)]
    by_cases hA : acc.2 < ((cv.2 : ℚ) : WithBot ℚ)
    · have hstep : stepCand acc cv = (cv.1, ((cv.2 : ℚ) : WithBot ℚ)) := by
        simp [stepCand, hA]
      rcases le_or_lt (bestValue t) ((cv.2 : ℚ) : WithBot ℚ) with hvbt | hvbt
      · have hmax : bestValue (cv :: t) = ((cv.2 : ℚ) : WithBot ℚ) := by
          rw [bestValue_cons]; exact max_eq_left hvbt
        rw [hstep, hmax,
          if_neg (show ¬ ((cv.1, ((cv.2 : ℚ) : WithBot ℚ)) : Cell).2 < bestValue t from
            not_lt.mpr hvbt),
          if_pos hA, List.find?_cons_of_pos _ (by simp)]
        rfl
      · have hmax : bestValue (cv :: t) = bestValue t := by
          rw [bestValue_cons]; exact max_eq_right (le_of_lt hvbt)
        rw [hstep, hmax,
          if_pos (show ((cv.1, ((cv.2 : ℚ) : WithBot ℚ)) : Cell).2 < bestValue t from hvbt),
          if_pos (lt_trans hA hvbt),
          List.find?_cons_of_neg _ (by simp [ne_of_lt hvbt])]
    · have hstep : stepCand acc cv = acc := by simp [stepCand, hA]
      rw [hstep]
      by_cases hB : acc.2 < bestValue t
      · have hvbt : ((cv.2 : ℚ) : WithBot ℚ) < bestValue t :=
          lt_of_le_of_lt (not_lt.mp hA) hB
        have hmax : bestValue (cv :: t) = bestValue t := by
          rw [bestValue_cons]; exact max_eq_right (le_of_lt hvbt)
        rw [hmax, if_pos hB, if_pos hB,
          List.find?_cons_of_neg _ (by simp [ne_of_lt hvbt])]
      · have hnc : ¬ acc.2 < bestValue (cv :: t) := by
          rw [bestValue_cons]
          intro hcon
          rcases lt_max_iff.mp hcon with h | h
          · exact hA h
          · exact hB h
        rw [if_neg hB, if_neg hnc]

/-- The strict-improvement fold from the sentinel cell computes exactly the
(first-found maximum) selection. -/
lemma selectFold_eq (l : List (ℚ × ℚ)) :
    selectFold l = (bestPolicy l, bestValue l) := by
  cases l with
  | nil => rfl
  | cons cv t =>
    rw [selectFold, foldl_stepCand]
    have hlt : ((0 : ℚ), (⊥ : WithBot ℚ)).2 < bestValue (cv :: t) := by
      have h1 : ((cv.2 : ℚ) : WithBot ℚ) ≤ bestValue (cv :: t) := by
        rw [bestValue_cons]; exact le_max_left _ _
      exact lt_of_lt_of_le (WithBot.bot_lt_coe _) h1
    rw [if_pos hlt]
    rfl

/-- The effect of one envelope-scan iteration on one output cell, phrased
through the candidate it produces. -/
def segUpdate (ufunc : ℚ → ℚ) (use_inv_w : Bool) (P : EGMIn) (im : ℕ)
    (cell : Cell) (ia : ℕ) : Cell :=
  match rawSegCandidate P ia im with
  | some cw => stepCand cell (candVal ufunc use_inv_w cw)
  | none => cell

lemma segStep_apply (ufunc : ℚ → ℚ) (use_inv_w : Bool) (P : EGMIn)
    (s : ℕ → Cell) (ia im : ℕ) (him : im < P.grid_m.length) :
    segStep ufunc use_inv_w P s ia im = segUpdate ufunc use_inv_w P im (s im) ia := by
  by_cases h1 : P.grid_a.getD ia 0 > P.grid_a.getD (ia + 1) 0
  · simp only [segStep, segUpdate, rawSegCandidate, if_pos h1]
  · by_cases hcover :
        (P.m_vec.getD ia 0 ≤ P.grid_m.getD im 0 ∧
          P.grid_m.getD im 0 ≤ P.m_vec.getD (ia + 1) 0) ∨
        (ia = P.grid_a.length - 2 ∧
          P.m_vec.getD (P.grid_a.length - 1) 0 < P.grid_m.getD im 0)
    · simp only [segStep, segUpdate, rawSegCandidate, candVal, stepCand,
        if_neg h1, if_pos him, if_pos hcover]
    · simp only [segStep, segUpdate, rawSegCandidate,
        if_neg h1, if_pos him, if_neg hcover]

lemma foldl_segStep (ufunc : ℚ → ℚ) (use_inv_w : Bool) (P : EGMIn)
    (l : List ℕ) : ∀ (s : ℕ → Cell) (im : ℕ), im < P.grid_m.length →
    (l.foldl (segStep ufunc use_inv_w P) s) im =
      l.foldl (segUpdate ufunc use_inv_w P im) (s im) := by
  induction l with
  | nil => intro s im _; rfl
  | cons a t ih =>
    intro s im him
    rw [List.foldl_cons, List.foldl_cons, ih _ im him,
      segStep_apply ufunc use_inv_w P s a im him]

lemma foldl_segUpdate (ufunc : ℚ → ℚ) (use_inv_w : Bool) (P : EGMIn) (im : ℕ)
    (l : List ℕ) : ∀ cell : Cell,
    l.foldl (segUpdate ufunc use_inv_w P im) cell =
      ((l.filterMap fun ia => rawSegCandidate P ia im).map
        (candVal ufunc use_inv_w)).foldl stepCand cell := by
  induction l with
  | nil => intro cell; rfl
  | cons a t ih =>
    intro cell
    rw [List.foldl_cons]
    cases hc : rawSegCandidate P a im with
    | none =>
      have hfm : List.filterMap (fun ia => rawSegCandidate P ia im) (a :: t) =
          List.filterMap (fun ia => rawSegCandidate P ia im) t := by
        simp [List.filterMap_cons, hc]
      rw [hfm, ← ih]
      have : segUpdate ufunc use_inv_w P im cell a = cell := by
        simp [segUpdate, hc]
      rw [this]
    | some cw =>
      have hfm : List.filterMap (fun ia => rawSegCandidate P ia im) (a :: t) =
          cw :: List.filterMap (fun ia => rawSegCandidate P ia im) t := by
        simp [List.filterMap_cons, hc]
      rw [hfm, List.map_cons, List.foldl_cons, ← ih]
      have : segUpdate ufunc use_inv_w P im cell a =
          stepCand cell (candVal ufunc use_inv_w cw) := by
        simp [segUpdate, hc]
      rw [this]

lemma getD_le_of_chainLe {x : List ℚ} (hx : List.Chain' (· ≤ ·) x) {i j : ℕ}
    (hij : i ≤ j) (hj : j < x.length) : x.getD i 0 ≤ x.getD j 0 := by
  rcases eq_or_lt_of_le hij with h | h
  · subst h; exact le_refl _
  · rw [getD_eq_get x i (lt_trans h hj), getD_eq_get x j hj]
    exact List.pairwise_iff_get.mp (List.chain'_iff_pairwise.mp hx) _ _ h

/-- Pointwise characterization of the fuelled constrained-region loop:
starting at counter `k` with enough fuel, cell `im` ends up constrained
exactly when the loop reaches it, i.e. when `k ≤ im < Nm` and every index
from `k` to `im` satisfies the loop condition. -/
lemma constrLoopF_apply (ufunc : ℚ → ℚ) (use_inv_w : Bool) (P : EGMIn) :
    ∀ (fuel k : ℕ) (s : ℕ → Cell) (im : ℕ), P.grid_m.length ≤ k + fuel →
    constrLoopF ufunc use_inv_w P fuel s k im =
      if k ≤ im ∧ im < P.grid_m.length ∧
          (∀ j, k ≤ j → j ≤ im → P.grid_m.getD j 0 ≤ P.m_vec.getD 0 0) then
        (P.grid_m.getD im 0,
          ((valueOf ufunc use_inv_w (P.grid_m.getD im 0) (P.inv_w_vec.getD 0 0) : ℚ) :
            WithBot ℚ))
      else s im := by
  intro fuel
  induction fuel with
  | zero =>
    intro k s im hfuel
    rw [if_neg]
    · rfl
    · rintro ⟨h1, h2, _⟩; omega
  | succ f ih =>
    intro k s im hfuel
    by_cases hc : k < P.grid_m.length ∧ P.grid_m.getD k 0 ≤ P.m_vec.getD 0 0
    · have hunf : constrLoopF ufunc use_inv_w P (f + 1) s k =
          constrLoopF ufunc use_inv_w P f
            (fun j => if j = k then
                (P.grid_m.getD k 0,
                  ((valueOf ufunc use_inv_w (P.grid_m.getD k 0)
                    (P.inv_w_vec.getD 0 0) : ℚ) : WithBot ℚ))
              else s j) (k + 1) := by
        simp only [constrLoopF, if_pos hc]
      rw [hunf, ih (k + 1) _ im (by omega)]
      rcases Nat.lt_trichotomy im k with hlt | heq | hgt
      · have hna : ¬ (k + 1 ≤ im ∧ im < P.grid_m.length ∧
            (∀ j, k + 1 ≤ j → j ≤ im → P.grid_m.getD j 0 ≤ P.m_vec.getD 0 0)) := by
          rintro ⟨h1, _, _⟩; omega
        have hnb : ¬ (k ≤ im ∧ im < P.grid_m.length ∧
            (∀ j, k ≤ j → j ≤ im → P.grid_m.getD j 0 ≤ P.m_vec.getD 0 0)) := by
          rintro ⟨h1, _, _⟩; omega
        rw [if_neg hna, if_neg hnb, if_neg (show ¬ im = k by omega)]
      · subst heq
        have hna : ¬ (im + 1 ≤ im ∧ im < P.grid_m.length ∧
            (∀ j, im + 1 ≤ j → j ≤ im → P.grid_m.getD j 0 ≤ P.m_vec.getD 0 0)) := by
          rintro ⟨h1, _, _⟩; omega
        have hpb : im ≤ im ∧ im < P.grid_m.length ∧
            (∀ j, im ≤ j → j ≤ im → P.grid_m.getD j 0 ≤ P.m_vec.getD 0 0) :=
          ⟨le_rfl, hc.1, fun j hj1 hj2 => by
            have hj : j = im := by omega
            subst hj; exact hc.2⟩
        rw [if_neg hna, if_pos hpb, if_pos (show im = im from rfl)]
      · have hiff : (k + 1 ≤ im ∧ im < P.grid_m.length ∧
            (∀ j, k + 1 ≤ j → j ≤ im → P.grid_m.getD j 0 ≤ P.m_vec.getD 0 0)) ↔
            (k ≤ im ∧ im < P.grid_m.length ∧
            (∀ j, k ≤ j → j ≤ im → P.grid_m.getD j 0 ≤ P.m_vec.getD 0 0)) := by
          constructor
          · rintro ⟨h1, h2, h3⟩
            refine ⟨by omega, h2, fun j hj1 hj2 => ?_⟩
            rcases eq_or_lt_of_le hj1 with he | hl
            · rw [← he]; exact hc.2
            · exact h3 j (by omega) hj2
          · rintro ⟨h1, h2, h3⟩
            exact ⟨by omega, h2, fun j hj1 hj2 => h3 j (by omega) hj2⟩
        by_cases hcond : k ≤ im ∧ im < P.grid_m.length ∧
            (∀ j, k ≤ j → j ≤ im → P.grid_m.getD j 0 ≤ P.m_vec.getD 0 0)
        · rw [if_pos (hiff.mpr hcond), if_pos hcond]
        · rw [if_neg (fun h => hcond (hiff.mp h)), if_neg hcond,
            if_neg (show ¬ im = k by omega)]
    · have hunf : constrLoopF ufunc use_inv_w P (f + 1) s k = s := by
        simp only [constrLoopF, if_neg hc]
      rw [hunf, if_neg]
      rintro ⟨h1, h2, h3⟩
      exact hc ⟨by omega, h3 k le_rfl h1⟩

/-- The upper envelope computes, at every target index, exactly the
strict-improvement fold over the ordered candidate list. -/
lemma upperenvelope_eq_select (ufunc : ℚ → ℚ) (use_inv_w : Bool) (P : EGMIn)
    (c_ast_init : ℕ → ℚ) (v_ast_init : ℕ → WithBot ℚ)
    (hmono : List.Chain' (· ≤ ·) P.grid_m) (im : ℕ) (him : im < P.grid_m.length) :
    upperenvelope ufunc use_inv_w P c_ast_init v_ast_init im =
      selectFold (candidateList ufunc use_inv_w P im) := by
  unfold upperenvelope
  rw [foldl_segStep ufunc use_inv_w P _ _ im him, foldl_segUpdate]
  have hs1 : constrLoopF ufunc use_inv_w P P.grid_m.length
      (fun _ => ((0 : ℚ), (⊥ : WithBot ℚ))) 0 im =
      ((rawConstrained P im).map (candVal ufunc use_inv_w)).foldl stepCand
        ((0 : ℚ), (⊥ : WithBot ℚ)) := by
    rw [constrLoopF_apply ufunc use_inv_w P P.grid_m.length 0 _ im (by omega)]
    by_cases hc : P.grid_m.getD im 0 ≤ P.m_vec.getD 0 0
    · rw [if_pos ⟨Nat.zero_le im, him,
        fun j _ hj2 => le_trans (getD_le_of_chainLe hmono hj2 him) hc⟩,
        rawConstrained, if_pos hc]
      simp only [List.map_cons, List.map_nil, List.foldl_cons, List.foldl_nil,
        stepCand, candVal]
      rw [if_pos (WithBot.bot_lt_coe _)]
    · rw [if_neg (by rintro ⟨_, _, hall⟩; exact hc (hall im (by omega) le_rfl)),
        rawConstrained, if_neg hc]
      rfl
  rw [hs1, selectFold, candidateList, rawCandidates, List.map_append,
    List.foldl_append]

lemma getD_map_range_gen {α : Type} (f : ℕ → α) (d : α) (n i : ℕ) (h : i < n) :
    ((List.range n).map f).getD i d = f i := by
  simp [List.getD_eq_getElem?_getD, List.getElem?_map, List.getElem?_range h]

/-- C1: with knot vectors of equal length `Na ≥ 2` and a non-decreasing
target grid, the final `v_ast_vec[im]` equals the maximum over all
candidate values produced at `grid_m[im]` — the constrained candidate when
`grid_m[im] ≤ m_vec[0]`, plus one candidate per consecutive knot pair
covering `grid_m[im]` by interpolation or (last pair only) extrapolation
above, inverted-asset pairs skipped — and `c_ast_vec[im]` is the
consumption of the first candidate attaining that maximum. -/
theorem C1_upper_envelope_selection (ufunc : ℚ → ℚ) (use_inv_w : Bool) (P : EGMIn)
    (c_ast_init : ℕ → ℚ) (v_ast_init : ℕ → WithBot ℚ)
    (hlen_m : P.m_vec.length = P.grid_a.length)
    (hlen_c : P.c_vec.length = P.grid_a.length)
    (hlen_w : P.inv_w_vec.length = P.grid_a.length)
    (hNa : 2 ≤ P.grid_a.length)
    (hmono : List.Chain' (· ≤ ·) P.grid_m)
    (im : ℕ) (him : im < P.grid_m.length) :
    (v_ast_vec ufunc use_inv_w P c_ast_init v_ast_init).getD im ⊥ =
      bestValue (candidateList ufunc use_inv_w P im) ∧
    (c_ast_vec ufunc use_inv_w P c_ast_init v_ast_init).getD im 0 =
      bestPolicy (candidateList ufunc use_inv_w P im) := by
  have hue := upperenvelope_eq_select ufunc use_inv_w P c_ast_init v_ast_init hmono im him
  rw [selectFold_eq] at hue
  constructor
  · rw [v_ast_vec, getD_map_range_gen _ _ _ im him, hue]
  · rw [c_ast_vec, getD_map_range_gen _ _ _ im him, hue]

theorem C1_upper_envelope_selection_witness :
    ((v_ast_vec (fun c => c) true ⟨[0, 1, 2], [1, 3, 2], [1, 2, 3/2], [0, -1, -1/2], [3/2]⟩
        (fun _ => 0) (fun _ => ⊥)).getD 0 ⊥ =
      bestValue (candidateList (fun c => c) true
        ⟨[0, 1, 2], [1, 3, 2], [1, 2, 3/2], [0, -1, -1/2], [3/2]⟩ 0)) ∧
    (v_ast_vec (fun c => c) true ⟨[0, 1, 2], [1, 3, 2], [1, 2, 3/2], [0, -1, -1/2], [3/2]⟩
        (fun _ => 0) (fun _ => ⊥)).getD 0 ⊥ = ((21/4 : ℚ) : WithBot ℚ) ∧
    (c_ast_vec (fun c => c) true ⟨[0, 1, 2], [1, 3, 2], [1, 2, 3/2], [0, -1, -1/2], [3/2]⟩
        (fun _ => 0) (fun _ => ⊥)).getD 0 0 = 5/4 := by
  refine ⟨(C1_upper_envelope_selection (fun c => c) true
      ⟨[0, 1, 2], [1, 3, 2], [1, 2, 3/2], [0, -1, -1/2], [3/2]⟩ (fun _ => 0) (fun _ => ⊥)
      rfl rfl rfl (by norm_num) (by simp) 0 (by norm_num)).1, ?_, ?_⟩
  · norm_num [v_ast_vec, upperenvelope, constrLoopF, segStep, valueOf, List.range_succ]
    rw [if_pos (by norm_cast)]
    show ((1 + 1/2 * (1/2) : ℚ) : WithBot ℚ) + 4 = ((21/4 : ℚ) : WithBot ℚ)
    rw [← WithBot.coe_ofNat, ← WithBot.coe_add]
    norm_num
  · norm_num [c_ast_vec, upperenvelope, constrLoopF, segStep, valueOf, List.range_succ]
    rw [if_pos (by norm_cast)]

/-- C4 counterexample: with the non-decreasing target grid `[2]`, knots
`grid_a = [0,1]`, `m_vec = [2,3]`, `c_vec = [1,1]`, `inv_w_vec = [0,2]`,
utility `c ↦ c` and no inverse transform, the target point `m = 2`
satisfies `m ≤ m_vec[0]` but ends with `c_ast_vec[0] = 1 ≠ 2 = grid_m[0]`:
the first knot pair covers `m = m_vec[0]` with a strictly higher value and
overwrites the constrained cell. -/
theorem C4_constrained_region_counterexample :
    List.Chain' (· ≤ ·) ([2] : List ℚ) ∧
    ([(2 : ℚ)] : List ℚ).getD 0 0 ≤ ([(2 : ℚ), 3] : List ℚ).getD 0 0 ∧
    (c_ast_vec (fun c => c) false ⟨[0, 1], [2, 3], [1, 1], [0, 2], [2]⟩
      (fun _ => 0) (fun _ => ⊥)).getD 0 0 ≠ ([(2 : ℚ)] : List ℚ).getD 0 0 := by
  refine ⟨by simp, by norm_num, ?_⟩
  norm_num [c_ast_vec, upperenvelope, constrLoopF, segStep, valueOf, List.range_succ]
  rw [if_pos (by norm_cast)]
  norm_num

/-- C4 (amended): when `m_vec[0]` is the minimum of the knot cash-on-hand
values and the target point is strictly below it, the constrained region
wins: `c_ast_vec[im] = grid_m[im]` exactly and `v_ast_vec[im]` is the
finite value `utility(grid_m[im])` plus the continuation term from
`inv_w_vec[0]`. -/
theorem C4_constrained_region (ufunc : ℚ → ℚ) (use_inv_w : Bool) (P : EGMIn)
    (c_ast_init : ℕ → ℚ) (v_ast_init : ℕ → WithBot ℚ)
    (hlen_m : P.m_vec.length = P.grid_a.length)
    (hmono : List.Chain' (· ≤ ·) P.grid_m)
    (hmin : ∀ ia, ia < P.m_vec.length → P.m_vec.getD 0 0 ≤ P.m_vec.getD ia 0)
    (im : ℕ) (him : im < P.grid_m.length)
    (hlt : P.grid_m.getD im 0 < P.m_vec.getD 0 0) :
    (c_ast_vec ufunc use_inv_w P c_ast_init v_ast_init).getD im 0 =
      P.grid_m.getD im 0 ∧
    (v_ast_vec ufunc use_inv_w P c_ast_init v_ast_init).getD im ⊥ =
      ((valueOf ufunc use_inv_w (P.grid_m.getD im 0) (P.inv_w_vec.getD 0 0) : ℚ) :
        WithBot ℚ) ∧
    (v_ast_vec ufunc use_inv_w P c_ast_init v_ast_init).getD im ⊥ ≠ ⊥ := by
  have hseg : ∀ ia, ia < P.grid_a.length - 1 → rawSegCandidate P ia im = none := by
    intro ia hia
    rw [rawSegCandidate]
    by_cases hg : P.grid_a.getD ia 0 > P.grid_a.getD (ia + 1) 0
    · rw [if_pos hg]
    · have hncov : ¬ ((P.m_vec.getD ia 0 ≤ P.grid_m.getD im 0 ∧
          P.grid_m.getD im 0 ≤ P.m_vec.getD (ia + 1) 0) ∨
          (ia = P.grid_a.length - 2 ∧
            P.m_vec.getD (P.grid_a.length - 1) 0 < P.grid_m.getD im 0)) := by
        rintro (⟨hcov, _⟩ | ⟨_, hext⟩)
        · have h1 : P.m_vec.getD 0 0 ≤ P.m_vec.getD ia 0 := hmin ia (by omega)
          linarith
        · have h1 : P.m_vec.getD 0 0 ≤ P.m_vec.getD (P.grid_a.length - 1) 0 := by
            apply hmin
            omega
          linarith
      rw [if_neg hg, if_neg hncov]
  have hfm : (List.range (P.grid_a.length - 1)).filterMap
      (fun ia => rawSegCandidate P ia im) = [] :=
    List.filterMap_eq_nil.mpr fun ia hia => hseg ia (List.mem_range.mp hia)
  have hcl : candidateList ufunc use_inv_w P im =
      [(P.grid_m.getD im 0,
        valueOf ufunc use_inv_w (P.grid_m.getD im 0) (P.inv_w_vec.getD 0 0))] := by
    rw [candidateList, rawCandidates, hfm, rawConstrained, if_pos (le_of_lt hlt)]
    simp [candVal]
  have hue := upperenvelope_eq_select ufunc use_inv_w P c_ast_init v_ast_init hmono im him
  rw [selectFold_eq, hcl] at hue
  have hbv : bestValue [(P.grid_m.getD im 0,
      valueOf ufunc use_inv_w (P.grid_m.getD im 0) (P.inv_w_vec.getD 0 0))] =
      ((valueOf ufunc use_inv_w (P.grid_m.getD im 0) (P.inv_w_vec.getD 0 0) : ℚ) :
        WithBot ℚ) := by
    simp [bestValue]
  have hbp : bestPolicy [(P.grid_m.getD im 0,
      valueOf ufunc use_inv_w (P.grid_m.getD im 0) (P.inv_w_vec.getD 0 0))] =
      P.grid_m.getD im 0 := by
    simp [bestPolicy, bestValue]
  rw [hbv, hbp] at hue
  refine ⟨?_, ?_, ?_⟩
  · rw [c_ast_vec, getD_map_range_gen _ _ _ im him, hue]
  · rw [v_ast_vec, getD_map_range_gen _ _ _ im him, hue]
  · rw [v_ast_vec, getD_map_range_gen _ _ _ im him, hue]
    exact WithBot.coe_ne_bot

theorem C4_constrained_region_witness :
    (c_ast_vec (fun c => c) false ⟨[0, 1], [2, 3], [1, 1], [0, 2], [1]⟩
      (fun _ => 0) (fun _ => ⊥)).getD 0 0 =
      ((⟨[0, 1], [2, 3], [1, 1], [0, 2], [1]⟩ : EGMIn).grid_m).getD 0 0 :=
  (C4_constrained_region (fun c => c) false ⟨[0, 1], [2, 3], [1, 1], [0, 2], [1]⟩
    (fun _ => 0) (fun _ => ⊥) rfl (by simp)
    (by intro ia hia; simp at hia; interval_cases ia <;> norm_num)
    0 (by norm_num) (by norm_num)).1

/-- C6 counterexample: on `grid_a = [0,1]`, `m_vec = [2,3]`, `c_vec = [1,2]`,
`inv_w_vec = [1,-1]`, `grid_m = [2]` with the constant-zero utility, the
run with `use_inv_w = True` selects the segment candidate (`c = 1`) while
the run with `use_inv_w = False` keeps the constrained candidate (`c = 2`):
the flag changes the consumption policy, not only the value. -/
theorem C6_flag_noninterference_counterexample :
    (c_ast_vec (fun _ => (0 : ℚ)) true ⟨[0, 1], [2, 3], [1, 2], [1, -1], [2]⟩
      (fun _ => 0) (fun _ => ⊥)).getD 0 0 ≠
    (c_ast_vec (fun _ => (0 : ℚ)) false ⟨[0, 1], [2, 3], [1, 2], [1, -1], [2]⟩
      (fun _ => 0) (fun _ => ⊥)).getD 0 0 := by
  have h1 : (c_ast_vec (fun _ => (0 : ℚ)) true ⟨[0, 1], [2, 3], [1, 2], [1, -1], [2]⟩
      (fun _ => 0) (fun _ => ⊥)).getD 0 0 = 1 := by
    norm_num [c_ast_vec, upperenvelope, constrLoopF, segStep, valueOf, List.range_succ]
  have h2 : (c_ast_vec (fun _ => (0 : ℚ)) false ⟨[0, 1], [2, 3], [1, 2], [1, -1], [2]⟩
      (fun _ => 0) (fun _ => ⊥)).getD 0 0 = 2 := by
    norm_num [c_ast_vec, upperenvelope, constrLoopF, segStep, valueOf, List.range_succ]
    rw [if_neg (by norm_cast)]
  rw [h1, h2]
  norm_num

/-- C6 (amended): the flag feeds one and the same flag-independent raw
candidate list (same consumptions, same continuation inputs) through the
flag-dependent valuation `u + (-1/w)` versus `u + w`; both runs are the
strict-improvement selection over that shared list, so the flag changes
only the per-candidate value recombination — but since selection compares
the recombined values, the selected consumption may differ between the
flags. -/
theorem C6_flag_changes_only_valuation (ufunc : ℚ → ℚ) (P : EGMIn)
    (c_ast_init : ℕ → ℚ) (v_ast_init : ℕ → WithBot ℚ)
    (hmono : List.Chain' (· ≤ ·) P.grid_m) (im : ℕ) (him : im < P.grid_m.length) :
    upperenvelope ufunc true P c_ast_init v_ast_init im =
      selectFold ((rawCandidates P im).map (candVal ufunc true)) ∧
    upperenvelope ufunc false P c_ast_init v_ast_init im =
      selectFold ((rawCandidates P im).map (candVal ufunc false)) :=
  ⟨upperenvelope_eq_select ufunc true P c_ast_init v_ast_init hmono im him,
   upperenvelope_eq_select ufunc false P c_ast_init v_ast_init hmono im him⟩

theorem C6_flag_changes_only_valuation_witness :
    upperenvelope (fun _ => (0 : ℚ)) true ⟨[0, 1], [2, 3], [1, 2], [1, -1], [2]⟩
      (fun _ => 0) (fun _ => ⊥) 0 =
      selectFold ((rawCandidates ⟨[0, 1], [2, 3], [1, 2], [1, -1], [2]⟩ 0).map
        (candVal (fun _ => (0 : ℚ)) true)) :=
  (C6_flag_changes_only_valuation (fun _ => (0 : ℚ))
    ⟨[0, 1], [2, 3], [1, 2], [1, -1], [2]⟩ (fun _ => 0) (fun _ => ⊥)
    (by simp) 0 (by norm_num)).1

/-- C7: an upper-envelope invocation first overwrites both outputs
entirely — the result does not depend on the initial buffer contents — and
a target index reached neither by the constrained `while` loop nor by any
knot-pair candidate ends with exactly the sentinel pair
`(c, v) = (0, -inf)`. -/
theorem C7_sentinel_full_overwrite :
    (∀ (ufunc : ℚ → ℚ) (use_inv_w : Bool) (P : EGMIn)
        (c0 : ℕ → ℚ) (v0 : ℕ → WithBot ℚ) (c0' : ℕ → ℚ) (v0' : ℕ → WithBot ℚ),
      upperenvelope ufunc use_inv_w P c0 v0 =
        upperenvelope ufunc use_inv_w P c0' v0') ∧
    (∀ (ufunc : ℚ → ℚ) (use_inv_w : Bool) (P : EGMIn)
        (c0 : ℕ → ℚ) (v0 : ℕ → WithBot ℚ) (im : ℕ), im < P.grid_m.length →
      (¬ ∀ j, j ≤ im → P.grid_m.getD j 0 ≤ P.m_vec.getD 0 0) →
      (∀ ia, ia < P.grid_a.length - 1 → rawSegCandidate P ia im = none) →
      upperenvelope ufunc use_inv_w P c0 v0 im = (0, (⊥ : WithBot ℚ))) := by
  constructor
  · intro _ _ _ _ _ _ _
    rfl
  · intro ufunc use_inv_w P c0 v0 im him hnc hseg
    unfold upperenvelope
    rw [foldl_segStep ufunc use_inv_w P _ _ im him, foldl_segUpdate]
    have hfm : (List.range (P.grid_a.length - 1)).filterMap
        (fun ia => rawSegCandidate P ia im) = [] :=
      List.filterMap_eq_nil.mpr fun ia hia => hseg ia (List.mem_range.mp hia)
    rw [hfm]
    simp only [List.map_nil, List.foldl_nil]
    rw [constrLoopF_apply ufunc use_inv_w P _ 0 _ im (by omega), if_neg]
    rintro ⟨_, _, hall⟩
    exact hnc fun j hj => hall j (by omega) hj

theorem C7_sentinel_full_overwrite_witness :
    upperenvelope (fun c => c) false ⟨[0, 2, 1], [0, 2, 1], [0, 0, 0], [0, 0, 0], [3]⟩
      (fun _ => 0) (fun _ => ⊥) 0 = (0, (⊥ : WithBot ℚ)) :=
  C7_sentinel_full_overwrite.2 (fun c => c) false
    ⟨[0, 2, 1], [0, 2, 1], [0, 0, 0], [0, 0, 0], [3]⟩ (fun _ => 0) (fun _ => ⊥) 0
    (by norm_num)
    (by intro h; have h0 := h 0 le_rfl; norm_num at h0)
    (by intro ia hia; simp at hia; interval_cases ia <;> norm_num [rawSegCandidate])

/-- C9: when `grid_a` is strictly increasing and adjacent `m_vec` entries
differ, no knot pair is skipped by the fold guard (`a_low > a_high` is
strict) and both slope divisors `a_high - a_low` and `m_high - m_low` are
nonzero; and a pair with equal asset endpoints, as in
`grid_a = [1,1]`, is not skipped by the guard and still produces a
candidate, reaching the zero-width division — so the strict-increase
precondition is necessary. -/
theorem C9_division_safety :
    (∀ (P : EGMIn) (ia : ℕ), List.Chain' (· < ·) P.grid_a →
      ia + 1 < P.grid_a.length →
      P.m_vec.getD ia 0 ≠ P.m_vec.getD (ia + 1) 0 →
      ¬ (P.grid_a.getD ia 0 > P.grid_a.getD (ia + 1) 0) ∧
      P.grid_a.getD (ia + 1) 0 - P.grid_a.getD ia 0 ≠ 0 ∧
      P.m_vec.getD (ia + 1) 0 - P.m_vec.getD ia 0 ≠ 0) ∧
    (¬ ((⟨[1, 1], [0, 2], [0, 0], [0, 0], [1]⟩ : EGMIn).grid_a.getD 0 0 >
        (⟨[1, 1], [0, 2], [0, 0], [0, 0], [1]⟩ : EGMIn).grid_a.getD 1 0) ∧
      (⟨[1, 1], [0, 2], [0, 0], [0, 0], [1]⟩ : EGMIn).grid_a.getD 1 0 -
        (⟨[1, 1], [0, 2], [0, 0], [0, 0], [1]⟩ : EGMIn).grid_a.getD 0 0 = 0 ∧
      (rawSegCandidate (⟨[1, 1], [0, 2], [0, 0], [0, 0], [1]⟩ : EGMIn) 0 0).isSome =
        true) := by
  constructor
  · intro P ia hchain hia hm
    have hlt : P.grid_a.getD ia 0 < P.grid_a.getD (ia + 1) 0 :=
      getD_lt_of_chain hchain (by omega) hia
    exact ⟨not_lt.mpr (le_of_lt hlt), sub_ne_zero.mpr (ne_of_gt hlt),
      sub_ne_zero.mpr (Ne.symm hm)⟩
  · refine ⟨by norm_num, by norm_num, ?_⟩
    norm_num [rawSegCandidate]

theorem C9_division_safety_witness :
    ¬ ((⟨[0, 1], [2, 3], [0, 0], [0, 0], [0]⟩ : EGMIn).grid_a.getD 0 0 >
       (⟨[0, 1], [2, 3], [0, 0], [0, 0], [0]⟩ : EGMIn).grid_a.getD 1 0) :=
  (C9_division_safety.1 ⟨[0, 1], [2, 3], [0, 0], [0, 0], [0]⟩ 0
    (by simp [List.chain'_cons]) (by norm_num) (by norm_num)).1
